import Mathlib

/-!
Shallow embedding of `src/json_yaml_files/prepare_files.py`
(class `BIDStoNDAConfigGenerator`) and proofs about it.

Strings are modelled as `List Char` (`LC`).  The external BIDS layout
library is modelled as an abstract `Layout` record: the program only
calls `parse_file_entities`, `get(scope=...)`, `get(scope, datatype,
return_type='file')` and `get_datatypes` on it.  Python dictionaries
are modelled as association lists, Python sets as `Finset`, and code
that can raise an uncaught exception (`dict[key]` on a missing key)
returns `Option`, with `none` standing for the crash.  Python's
`list(Z)` on a set enumerates the set in an unspecified order; run
functions therefore take an enumeration function `Finset LC → List LC`
as a parameter, constrained by `goodEnum` where a claim needs it.
-/

abbrev LC := List Char

/-- Total lexicographic comparison on `List Char`, used only to build one
concrete, computable set-enumeration function (`listEnum`). -/
def lcLe : LC → LC → Bool
  | [], _ => true
  | _ :: _, [] => false
  | a :: as, b :: bs => if a < b then true else if b < a then false else lcLe as bs

/-- Propositional form of `lcLe`. -/
def lcR (a b : LC) : Prop := lcLe a b = true

instance : DecidableRel lcR := fun a b => inferInstanceAs (Decidable (lcLe a b = true))

instance : IsTotal LC lcR where
  total := by
    intro a
    induction a with
    | nil => intro b; left; rfl
    | cons c as ih =>
      intro b
      cases b with
      | nil => right; rfl
      | cons e bs =>
        rcases lt_trichotomy c e with h | h | h
        · left; simp [lcR, lcLe, h]
        · subst h
          rcases ih bs with h2 | h2
          · left; simp [lcR, lcLe] at h2 ⊢; simpa using h2
          · right; simp [lcR, lcLe] at h2 ⊢; simpa using h2
        · right; simp [lcR, lcLe, h]

instance : IsTrans LC lcR where
  trans := by
    intro a
    induction a with
    | nil => intro b c _ _; rfl
    | cons x as ih =>
      intro b c hab hbc
      cases b with
      | nil => simp [lcR, lcLe] at hab
      | cons y bs =>
        cases c with
        | nil => simp [lcR, lcLe] at hbc
        | cons z cs =>
          simp only [lcR, lcLe] at hab hbc ⊢
          rcases lt_trichotomy x y with h1 | h1 | h1
          · rcases lt_trichotomy y z with h2 | h2 | h2
            · simp [h1.trans h2]
            · subst h2; simp [h1]
            · simp [h2, not_lt.mpr h2.le] at hbc
          · subst h1
            rcases lt_trichotomy x z with h2 | h2 | h2
            · simp [h2]
            · subst h2
              simp [lt_irrefl] at hab hbc ⊢
              exact ih _ _ hab hbc
            · simp [h2, not_lt.mpr h2.le] at hbc
          · simp [h1, not_lt.mpr h1.le] at hab

instance : IsAntisymm LC lcR where
  antisymm := by
    intro a
    induction a with
    | nil =>
      intro b _ hba
      cases b with
      | nil => rfl
      | cons y bs => simp [lcR, lcLe] at hba
    | cons x as ih =>
      intro b hab hba
      cases b with
      | nil => simp [lcR, lcLe] at hab
      | cons y bs =>
        simp only [lcR, lcLe] at hab hba
        rcases lt_trichotomy x y with h1 | h1 | h1
        · simp [h1, not_lt.mpr h1.le] at hba
        · subst h1
          simp [lt_irrefl] at hab hba
          exact congrArg (x :: ·) (ih bs hab hba)
        · simp [h1, not_lt.mpr h1.le] at hab

/-- One concrete enumeration of a `Finset LC`: sorts a representative list;
well-defined because sorting is permutation-invariant. -/
def listEnum (s : Finset LC) : List LC :=
  Quotient.liftOn s.val (fun l => List.insertionSort lcR l)
    (fun l1 l2 h =>
      List.eq_of_perm_of_sorted
        ((List.perm_insertionSort lcR l1).trans
          (h.trans (List.perm_insertionSort lcR l2).symm))
        (List.sorted_insertionSort lcR l1)
        (List.sorted_insertionSort lcR l2))

/-- A well-behaved enumeration of a Python set: duplicate-free and covering
exactly the set (the order is arbitrary, as for CPython's `list(Z)`). -/
def goodEnum (e : Finset LC → List LC) : Prop :=
  ∀ s : Finset LC, (e s).Nodup ∧ (e s).toFinset = s

/-- Dictionary lookup (`dict.get(k)`): first binding of the key, if any. -/
def tableGet (tbl : List (LC × LC)) (k : LC) : Option LC :=
  (tbl.find? (fun p => p.1 == k)).map (fun p => p.2)

/-- Python `str.lower()` (keys of `scan_type` are ASCII). -/
def toLowerLC (z : LC) : LC := z.map Char.toLower

/-- The two-level `self.scan_type` table (datatype → suffix → label),
transcribed from the constructor. -/
def scan_type (Y : LC) : List (LC × LC) :=
  if Y = ("anat".data) then
    [(("mprage".data), ("MR structural (MPRAGE)".data)),
     (("t1w".data), ("MR structural (T1)".data)),
     (("pd".data), ("MR structural (PD)".data)),
     (("fspgr".data), ("MR structural (FSPGR)".data)),
     (("fsip".data), ("MR structural (FISP)".data)),
     (("t2w".data), ("MR structural (T2)".data)),
     (("pd_t2".data), ("MR structural (PD, T2)".data)),
     (("b0_map".data), ("MR structural (B0 map)".data)),
     (("b1_map".data), ("MR structural (B1 map)".data)),
     (("flash".data), ("MR structural (FLASH)".data)),
     (("mp2rage".data), ("MR structural (MP2RAGE)".data)),
     (("tse".data), ("MR structural (TSE)".data)),
     (("t1w_t2w".data), ("MR structural (T1, T2)".data)),
     (("mpnrage".data), ("MR structural (MPnRAGE)".data))]
  else if Y = ("pet".data) then
    [(("pet".data), ("PET".data))]
  else []

/-- The `self.image_modality` table (datatype → modality), transcribed from
the constructor. -/
def image_modality : List (LC × LC) :=
  [(("pet".data), ("PET".data)),
   (("anat".data), ("MRI".data)),
   (("func".data), ("MRI".data)),
   (("dwi".data), ("MRI".data)),
   (("fmap".data), ("MRI".data))]

/-- `fetch_scan_type(Y, Z)` from the source: membership test on
`scan_type.get(Y, {})` with `Z.lower()`, then the prefix of `Z` before the
first underscore, then `self.scan_type.get(Y, {}).get(Y, '')`. -/
def fetch_scan_type (Y Z : LC) : LC :=
  if (tableGet (scan_type Y) (toLowerLC Z)).isSome then
    (tableGet (scan_type Y) (toLowerLC Z)).getD []
  else if '_' ∈ Z then
    let pref := Z.takeWhile (fun c => c ≠ '_')
    if (tableGet (scan_type Y) (toLowerLC pref)).isSome then
      (tableGet (scan_type Y) (toLowerLC pref)).getD []
    else (tableGet (scan_type Y) Y).getD []
  else (tableGet (scan_type Y) Y).getD []

/-- Tiered-lookup description of `fetch_scan_type` as the (amended) spec
words it: table at lowercase `Z`, else table at the lowercase prefix of `Z`
before the first underscore, else the label the table at `Y` gives to the
key `Y` itself, else the empty string. -/
def scanTypeAmendedSpec (Y Z : LC) : LC :=
  match tableGet (scan_type Y) (toLowerLC Z) with
  | some l => l
  | none =>
    match (if '_' ∈ Z then
            tableGet (scan_type Y) (toLowerLC (Z.takeWhile (fun c => c ≠ '_')))
          else none) with
    | some l => l
    | none =>
      match tableGet (scan_type Y) Y with
      | some l => l
      | none => []

/-- The `'{SUBJECT}'` placeholder token. -/
def subjectTok : LC := ("\x7bSUBJECT\x7d".data)

/-- The `'{SESSION}'` placeholder token. -/
def sessionTok : LC := ("\x7bSESSION\x7d".data)

/-- Fuelled worker for Python `str.replace`: scan left to right, replace
each non-overlapping occurrence of `pat`, continue after it.  The fuel is
always instantiated with the length of the scanned text. -/
def replaceAllF : Nat → LC → LC → LC → LC
  | 0, t, _, _ => t
  | fuel + 1, t, pat, r =>
    if pat.isPrefixOf t then r ++ replaceAllF fuel (t.drop pat.length) pat r
    else
      match t with
      | [] => []
      | c :: rest => c :: replaceAllF fuel rest pat r

/-- Python `t.replace(pat, r)` for the nonempty patterns this program uses
(the empty-pattern case never arises: both call sites are guarded by
Python truthiness of the pattern). -/
def replaceAll (t pat r : LC) : LC :=
  if pat.isEmpty then t else replaceAllF t.length t pat r

/-- Python `re.sub(r'-\d', '-{#}', ...)`: each hyphen immediately followed
by a digit is replaced together with that single digit; scanning resumes
after the match. -/
def hyphenSub : LC → LC
  | [] => []
  | '-' :: c :: rest =>
    if c.isDigit then '-' :: '\x7b' :: '#' :: '\x7d' :: hyphenSub rest
    else '-' :: hyphenSub (c :: rest)
  | c :: rest => c :: hyphenSub rest

/-- `_replace_placeholders(path, subject, session)` from the source:
replace all occurrences of the subject (when truthy) by `{SUBJECT}`, then
of the session by `{SESSION}`, then apply the hyphen-digit substitution. -/
def replace_placeholders (path : LC) (subject session : Option LC) : LC :=
  let p1 := match subject with
    | some s => if s.isEmpty then path else replaceAll path s subjectTok
    | none => path
  let p2 := match session with
    | some s => if s.isEmpty then p1 else replaceAll p1 s sessionTok
    | none => p1
  hyphenSub p2

/-- No hyphen immediately followed by a digit occurs in the list. -/
def noHyphenDigit : LC → Bool
  | [] => true
  | _ :: [] => true
  | a :: b :: rest => !(a == '-' && b.isDigit) && noHyphenDigit (b :: rest)

/-- No occurrence of `pat` in `a ++ pat ++ b` starts strictly before the
displayed one; this pins the displayed occurrence as the leftmost one that
`str.replace` rewrites first. -/
def noEarlyOccur (a pat b : LC) : Prop :=
  ∀ k, k < a.length → pat.isPrefixOf ((a ++ pat ++ b).drop k) = false

instance (a pat b : LC) : Decidable (noEarlyOccur a pat b) := by
  unfold noEarlyOccur
  infer_instance

/-- Worker for Python `str.find`: index of the leftmost occurrence. -/
def pyFindAux (pat : LC) : LC → Nat → Option Nat
  | [], i => if pat.isPrefixOf [] then some i else none
  | c :: rest, i =>
    if pat.isPrefixOf (c :: rest) then some i else pyFindAux pat rest (i + 1)

/-- Python `s.find(pat)`: leftmost index, or `-1` when absent. -/
def pyFind (s pat : LC) : Int :=
  match pyFindAux pat s 0 with
  | some n => (n : Int)
  | none => -1

/-- Python `s[i:]` with an `Int` index: a negative index counts from the
end, clamped at zero. -/
def pySliceFrom (s : LC) (i : Int) : LC :=
  if i < 0 then s.drop (((s.length : Int) + i).toNat) else s.drop i.toNat

/-- Trailing part of the file-name pattern: `.` matches any character but
a newline and `$` also matches just before one final newline, so `.+$`
accepts a nonempty newline-free tail, optionally ending in one newline. -/
def tailOK (t : LC) : Bool :=
  let core := if t.getLast? = some '\n' then t.dropLast else t
  !core.isEmpty && core.all (fun c => c ≠ '\n')

/-- `extract_file_name_components` from the source: match against
`^(?P<A>[^_]+)_(?P<X>[^.]+)\.(?P<Y>[^.]+)\.(?P<Z>[^.]+)\..+$` and return
the four named groups, or `none` (Python `(None, None, None, None)`). -/
def extract_file_name_components (name : LC) : Option (LC × LC × LC × LC) :=
  let A := name.takeWhile (fun c => c ≠ '_')
  match name.dropWhile (fun c => c ≠ '_') with
  | [] => none
  | _ :: r1 =>
    if A.isEmpty then none else
    let X := r1.takeWhile (fun c => c ≠ '.')
    match r1.dropWhile (fun c => c ≠ '.') with
    | [] => none
    | _ :: r2 =>
      if X.isEmpty then none else
      let Y := r2.takeWhile (fun c => c ≠ '.')
      match r2.dropWhile (fun c => c ≠ '.') with
      | [] => none
      | _ :: r3 =>
        if Y.isEmpty then none else
        let Z := r3.takeWhile (fun c => c ≠ '.')
        match r3.dropWhile (fun c => c ≠ '.') with
        | [] => none
        | _ :: r4 =>
          if Z.isEmpty then none else
          if tailOK r4 then some (A, X, Y, Z) else none

/-- The external BIDS layout object, abstracted to the four queries the
program performs on it. -/
structure Layout where
  scopeFiles : LC → List LC
  files : LC → LC → List LC
  datatypes : List LC
  parseEntities : LC → List (LC × LC)

/-- The `ignore_list` of `fetch_Z_value`. -/
def ignore_list : List LC :=
  [("desc".data), ("subject".data), ("session".data),
   ("extension".data), ("suffix".data), ("datatype".data)]

/-- The per-entity value `z` built inside `fetch_Z_value`'s inner loop:
`f"{key}-{value}"` (bare value for `space`), with `_{suffix}` appended when
the parsed suffix is truthy and differs from the parsed datatype. -/
def zOfEntity (es : List (LC × LC)) (k v : LC) : LC :=
  let z0 := if k = ("space".data) then v else k ++ '-' :: v
  match tableGet es ("suffix".data) with
  | some s =>
    if ¬s.isEmpty ∧ some s ≠ tableGet es ("datatype".data) then
      (if ¬z0.isEmpty then z0 ++ '_' :: s else s)
    else z0
  | none => z0

/-- Inner entity loop of `fetch_Z_value` for one file: add the z-value of
each listed entity to the accumulated set when it is nonempty. -/
def zInsertLoop (es : List (LC × LC)) (l : List (LC × LC)) (acc : Finset LC) : Finset LC :=
  l.foldl (fun A kv =>
    let z := zOfEntity es kv.1 kv.2
    if ¬z.isEmpty then insert z A else A) acc

/-- Processing of one file inside `fetch_Z_value`: add the z-values of the
non-ignored entities to the accumulated set; if the accumulated set is
still empty afterwards, fall back on `entities['suffix']` (a crash —
`none` — when the suffix or datatype key is missing), added only when it
differs from `entities['datatype']`. -/
def fileZStep (es : List (LC × LC)) (acc : Finset LC) : Option (Finset LC) :=
  let acc2 := zInsertLoop es (es.filter (fun kv => ¬kv.1 ∈ ignore_list)) acc
  if acc2 = ∅ then
    match tableGet es ("suffix".data), tableGet es ("datatype".data) with
    | some s, some dt => some (if s ≠ dt then insert s acc2 else acc2)
    | _, _ => none
  else some acc2

/-- The file loop of `fetch_Z_value`. -/
def zLoop (parse : LC → List (LC × LC)) : List LC → Finset LC → Option (Finset LC)
  | [], acc => some acc
  | f :: rest, acc =>
    match fileZStep (parse f) acc with
    | some acc2 => zLoop parse rest acc2
    | none => none

/-- `fetch_Z_value(files)` from the source, as the set it accumulates
(Python returns `list(Z)` in unspecified order; enumeration is a separate
parameter of the run model).  `none` models the uncaught `KeyError`. -/
def fetch_Z_value (parse : LC → List (LC × LC)) (files : List LC) : Option (Finset LC) :=
  zLoop parse files ∅

/-- File-name stem `image03_<X>.<Y>.<Z>` plus the `.json` extension. -/
def jsonNameOf (x y z : LC) : LC :=
  ("image03_".data) ++ x ++ '.' :: y ++ '.' :: z ++ (".json".data)

/-- File-name stem `image03_<X>.<Y>.<Z>` plus the `.yaml` extension. -/
def yamlNameOf (x y z : LC) : LC :=
  ("image03_".data) ++ x ++ '.' :: y ++ '.' :: z ++ (".yaml".data)

/-- `prepare_file_names(X, Y, Z)` from the source, for a given enumeration
`zs` of the set `Z`. -/
def prepare_file_names (x y : LC) (zs : List LC) : List LC × List LC :=
  (zs.map (fun z => jsonNameOf x y z), zs.map (fun z => yamlNameOf x y z))

/-- The `sub_path` computed for one file in `prepare_json_contents`:
`file_path[file_path.find(prefix):]` when `X` is `inputs` (prefix `sub-`)
or `derivatives` (prefix `derivatives`), the whole path otherwise. -/
def subPathFor (X? : Option LC) (p : LC) : LC :=
  match X? with
  | some x =>
    if x = ("derivatives".data) then pySliceFrom p (pyFind p ("derivatives".data))
    else if x = ("inputs".data) then pySliceFrom p (pyFind p ("sub-".data))
    else p
  | none => p

/-- Python `dict[k] = v`: overwrite in place when the key exists, append
otherwise (insertion order preserved). -/
def dictInsert (l : List (LC × LC)) (k v : LC) : List (LC × LC) :=
  if l.any (fun p => p.1 == k) then
    l.map (fun p => if p.1 == k then (p.1, v) else p)
  else l ++ [(k, v)]

/-- The JSON key computed for one file path in `prepare_json_contents`. -/
def jsonKeyFor (parse : LC → List (LC × LC)) (X? : Option LC) (p : LC) : LC :=
  let sub_path := subPathFor X? p
  let es := parse sub_path
  replace_placeholders sub_path (tableGet es ("subject".data)) (tableGet es ("session".data))

/-- `prepare_json_contents(file_name, files)` from the source, as the
key-to-value dictionary it writes (keys in Python-dict insertion order). -/
def prepare_json_contents (parse : LC → List (LC × LC)) (name : LC) (files : List LC) :
    List (LC × LC) :=
  let X? := (extract_file_name_components name).map (fun t => t.2.1)
  files.foldl (fun acc fp =>
    let key := jsonKeyFor parse X? fp
    dictInsert acc key key) []

/-- The fixed-shape YAML record written by `prepare_yaml_contents`. -/
structure YamlRec where
  scan_type : LC
  scan_object : LC
  image_file_format : LC
  image_modality : LC
  transformation_performed : LC
deriving DecidableEq

/-- `prepare_yaml_contents(file_name)` from the source: `none` models the
uncaught exception (`KeyError` on `self.image_modality[Y]`, or the
`AttributeError` on `None.lower()` when the name does not match the
pattern); in either case nothing is written. -/
def prepare_yaml_contents (name : LC) : Option YamlRec :=
  match extract_file_name_components name with
  | some (_, _, Y, Z) =>
    (tableGet image_modality Y).map (fun m =>
      ⟨fetch_scan_type Y Z, ("Live".data), ("NIFTI".data), m, ("No".data)⟩)
  | none => none

/-- The `scopes` dictionary of `run`, in its Python insertion order. -/
def scopePairs : List (LC × LC) :=
  [(("raw".data), ("inputs".data)),
   (("derivatives".data), ("derivatives".data)),
   (("sourcedata".data), ("sourcedata".data))]

/-- The `X` list of `run`: scope names whose `layout.get(scope=...)` list
is truthy. -/
def runX (L : Layout) : List LC :=
  (scopePairs.filter (fun p => ¬(L.scopeFiles p.1).isEmpty)).map (fun p => p.2)

/-- The `(x, y)` iteration space of `run`, in iteration order. -/
def runGroups (L : Layout) : List (LC × LC) :=
  (runX L).flatMap (fun x => L.datatypes.map (fun y => (x, y)))

/-- The file list `run` queries for one `(x, y)` group (scope `raw` is
queried when `x` is `inputs`). -/
def groupFiles (L : Layout) (x y : LC) : List LC :=
  L.files (if x = ("inputs".data) then ("raw".data) else x) y

/-- The JSON and YAML writes of one `(x, y)` group of `run`, as
name-content pairs in write order; `none` models an uncaught exception in
`fetch_Z_value` or `prepare_yaml_contents`. -/
def groupWrites (L : Layout) (enum : Finset LC → List LC) (x y : LC) :
    Option (List (LC × List (LC × LC)) × List (LC × YamlRec)) :=
  match fetch_Z_value L.parseEntities (groupFiles L x y) with
  | none => none
  | some Zs =>
    let names := prepare_file_names x y (enum Zs)
    let jw := names.1.map (fun n =>
      (n, prepare_json_contents L.parseEntities n (groupFiles L x y)))
    match names.2.mapM (fun n => (prepare_yaml_contents n).map (fun c => (n, c))) with
    | some yw => some (jw, yw)
    | none => none

/-- The group loop of `run`, accumulating the JSON and YAML writes. -/
def runLoop (L : Layout) (enum : Finset LC → List LC) :
    List (LC × LC) → List (LC × List (LC × LC)) × List (LC × YamlRec) →
    Option (List (LC × List (LC × LC)) × List (LC × YamlRec))
  | [], acc => some acc
  | g :: rest, acc =>
    match groupWrites L enum g.1 g.2 with
    | some w => runLoop L enum rest (acc.1 ++ w.1, acc.2 ++ w.2)
    | none => none

/-- `run()` from the source: every JSON and YAML write it performs, as
name-content pairs in write order, for a given set-enumeration function. -/
def run (L : Layout) (enum : Finset LC → List LC) :
    Option (List (LC × List (LC × LC)) × List (LC × YamlRec)) :=
  runLoop L enum (runGroups L) ([], [])

/-- The `(scope, datatype, Z)` combinations `run` observes, in iteration
order, for one group (defined only when the group's writes succeed). -/
def groupTriples (L : Layout) (enum : Finset LC → List LC) (x y : LC) :
    Option (List (LC × LC × LC)) :=
  match groupWrites L enum x y with
  | none => none
  | some _ =>
    match fetch_Z_value L.parseEntities (groupFiles L x y) with
    | some Zs => some ((enum Zs).map (fun z => (x, y, z)))
    | none => none

/-- The loop accumulating `(scope, datatype, Z)` combinations over the
groups of `run`. -/
def runTriplesLoop (L : Layout) (enum : Finset LC → List LC) :
    List (LC × LC) → List (LC × LC × LC) → Option (List (LC × LC × LC))
  | [], acc => some acc
  | g :: rest, acc =>
    match groupTriples L enum g.1 g.2 with
    | some ts => runTriplesLoop L enum rest (acc ++ ts)
    | none => none

/-- All `(scope, datatype, Z)` combinations observed in one run. -/
def runTriples (L : Layout) (enum : Finset LC → List LC) :
    Option (List (LC × LC × LC)) :=
  runTriplesLoop L enum (runGroups L) []

/-- Final state of one output directory after a list of writes: the last
write to a name wins. -/
def toMap {β : Type} (l : List (LC × β)) : LC → Option β :=
  fun k => l.foldl (fun acc p => if p.1 = k then some p.2 else acc) none

/-- Reversal of `listEnum`: a second well-behaved enumeration, used to
exercise enumeration-order independence. -/
def revEnum (s : Finset LC) : List LC := (listEnum s).reverse

/-- A concrete BIDS file path with subject `01`, session `02` and a
`run-12` entity. -/
def cex2Path : LC := ("sub-01/ses-02/func/sub-01_ses-02_run-12_bold.nii.gz".data)

/-- Entity parser of the concrete layout used for the placeholder
counterexample: `cex2Path` parses to subject `01` and session `02`. -/
def cex2Parse : LC → List (LC × LC) := fun p =>
  if p = cex2Path then
    [(("subject".data), ("01".data)), (("session".data), ("02".data))]
  else []

/-- Entity parser of the concrete layout for the `fetch_Z_value` fallback
counterexample and witness: `f1` carries one non-ignored entity (`acq-x`),
`f2` carries only ignored entities with suffix `T1w` and datatype `anat`,
and `g1` carries only ignored entities with equal suffix and datatype. -/
def cex1Parse : LC → List (LC × LC) := fun p =>
  if p = ("f1".data) then
    [(("acq".data), ("x".data)), (("suffix".data), ("bold".data)),
     (("datatype".data), ("func".data))]
  else if p = ("f2".data) then
    [(("suffix".data), ("T1w".data)), (("datatype".data), ("anat".data))]
  else if p = ("g1".data) then
    [(("suffix".data), ("anat".data)), (("datatype".data), ("anat".data))]
  else []

/-- The example dataset path `sub-01/anat/sub-01_T1w.nii.gz`. -/
def pathT1w : LC := ("sub-01/anat/sub-01_T1w.nii.gz".data)

/-- Concrete layout holding exactly the example dataset: one raw-scope file
`sub-01/anat/sub-01_T1w.nii.gz` of datatype `anat`, parsing to subject
`01`, datatype `anat`, suffix `T1w`, extension `.nii.gz`. -/
def layoutT1w : Layout :=
  { scopeFiles := fun s => if s = ("raw".data) then [pathT1w] else []
    files := fun s y =>
      if s = ("raw".data) ∧ y = ("anat".data) then [pathT1w] else []
    datatypes := [("anat".data)]
    parseEntities := fun p =>
      if p = pathT1w then
        [(("subject".data), ("01".data)), (("datatype".data), ("anat".data)),
         (("suffix".data), ("T1w".data)), (("extension".data), (".nii.gz".data))]
      else [] }

/-- Concrete two-file layout whose single group has a two-element `Z` set,
used to exercise enumeration-order independence of `run`. -/
def layoutTwoZ : Layout :=
  { scopeFiles := fun s => if s = ("raw".data) then [("f1".data), ("f2".data)] else []
    files := fun s y =>
      if s = ("raw".data) ∧ y = ("func".data) then [("f1".data), ("f2".data)] else []
    datatypes := [("func".data)]
    parseEntities := fun p =>
      if p = ("f1".data) then
        [(("acq".data), ("a".data)), (("suffix".data), ("bold".data)),
         (("datatype".data), ("func".data))]
      else if p = ("f2".data) then
        [(("acq".data), ("b".data)), (("suffix".data), ("bold".data)),
         (("datatype".data), ("func".data))]
      else [] }

/-- C3 counterexample: the claim says that when neither the lowercase `Z`
nor its before-underscore prefix is in the table for `Y`, the function
returns the empty string; with `Y = "pet"`, `Z = "nonsense"` the source
instead returns the table entry `scan_type["pet"]["pet"] = "PET"`. -/
theorem fetch_scan_type_pet_fallback_counterexample :
    fetch_scan_type ("pet".data) ("nonsense".data) = ("PET".data) ∧
    ("PET".data) ≠ ([] : LC) := by
  constructor
  · decide
  · decide

/-- C3 (amended): `fetch_scan_type` returns the label at
`scan_type[Y][lowercase Z]` when present; otherwise, when `Z` contains an
underscore and the lowercase prefix of `Z` before the first underscore is in
the table for `Y`, that prefix's label; otherwise the label that the table
for `Y` assigns to the key `Y` itself when present (not the empty string),
and the empty string only when that last lookup also misses. -/
theorem fetch_scan_type_eq_amended_spec (Y Z : LC) :
    fetch_scan_type Y Z = scanTypeAmendedSpec Y Z := by
  unfold fetch_scan_type scanTypeAmendedSpec
  cases h1 : tableGet (scan_type Y) (toLowerLC Z) with
  | some l => simp [h1]
  | none =>
    simp only [h1, Option.isSome_none, Bool.false_eq_true, if_false]
    by_cases h2 : '_' ∈ Z
    · simp only [h2, if_true]
      cases h3 : tableGet (scan_type Y) (toLowerLC (Z.takeWhile (fun c => c ≠ '_'))) with
      | some l => simp [h3]
      | none =>
        simp only [h3, Option.isSome_none, Bool.false_eq_true, if_false]
        cases h4 : tableGet (scan_type Y) Y with
        | some l => simp [h4]
        | none => simp [h4]
    · simp only [h2, if_false]
      cases h4 : tableGet (scan_type Y) Y with
      | some l => simp [h4]
      | none => simp [h4]

/-- The fuel of `replaceAllF` is irrelevant once it covers the text length. -/
theorem replaceAllF_nil (pat r : LC) (hp : pat ≠ []) (f : Nat) :
    replaceAllF f [] pat r = [] := by
  cases f with
  | zero => rfl
  | succ f =>
    have : pat.isPrefixOf [] = false := by
      cases pat with
      | nil => exact absurd rfl hp
      | cons c cs => rfl
    simp [replaceAllF, this]

theorem replaceAllF_fuel (pat r : LC) (hp : pat ≠ []) :
    ∀ f g t : _, t.length ≤ f → t.length ≤ g →
      replaceAllF f t pat r = replaceAllF g t pat r := by
  intro f
  induction f with
  | zero =>
    intro g t hf _
    have : t = [] := List.length_eq_zero.mp (Nat.le_zero.mp hf)
    subst this
    rw [replaceAllF_nil pat r hp, replaceAllF_nil pat r hp]
  | succ f ih =>
    intro g t hf hg
    cases g with
    | zero =>
      have : t = [] := List.length_eq_zero.mp (Nat.le_zero.mp hg)
      subst this
      rw [replaceAllF_nil pat r hp, replaceAllF_nil pat r hp]
    | succ g =>
      by_cases hpre0 : pat.isPrefixOf t = true
      · have htne : t ≠ [] := by
          intro h
          subst h
          cases pat with
          | nil => exact hp rfl
          | cons c cs => simp [List.isPrefixOf] at hpre0
        have hplen : 1 ≤ pat.length := by
          cases pat with
          | nil => exact absurd rfl hp
          | cons c cs => simp
        have hdrop : (t.drop pat.length).length ≤ f := by
          simp only [List.length_drop]
          omega
        have hdropg : (t.drop pat.length).length ≤ g := by
          simp only [List.length_drop]
          omega
        simp only [replaceAllF, hpre0, if_true]
        rw [ih g _ hdrop hdropg]
      · cases t with
        | nil =>
          rw [replaceAllF_nil pat r hp, replaceAllF_nil pat r hp]
        | cons c rest =>
          have h1 : rest.length ≤ f := by simp at hf; omega
          have h2 : rest.length ≤ g := by simp at hg; omega
          have hpre' : pat.isPrefixOf (c :: rest) = false :=
            Bool.eq_false_iff.mpr hpre0
          simp only [replaceAllF, hpre', Bool.false_eq_true, if_false]
          rw [ih g rest h1 h2]

/-- Unfolding `replaceAll` at a match position. -/
theorem replaceAll_head_match (t pat r : LC) (hp : pat ≠ [])
    (h : pat.isPrefixOf t) :
    replaceAll t pat r = r ++ replaceAll (t.drop pat.length) pat r := by
  have hpe : pat.isEmpty = false := by
    cases pat with
    | nil => exact absurd rfl hp
    | cons c cs => rfl
  have htne : t ≠ [] := by
    intro he
    subst he
    cases pat with
    | nil => exact hp rfl
    | cons c cs => simp [List.isPrefixOf] at h
  obtain ⟨c, rest, rfl⟩ := List.exists_cons_of_ne_nil htne
  have hplen : 1 ≤ pat.length := by
    cases pat with
    | nil => exact absurd rfl hp
    | cons c cs => simp
  simp only [replaceAll, hpe, Bool.false_eq_true, if_false, List.length_cons]
  simp only [replaceAllF, h, if_true]
  congr 1
  exact replaceAllF_fuel pat r hp _ _ _ (by simp [List.length_drop]; omega) le_rfl

/-- Unfolding `replaceAll` at a non-match position. -/
theorem replaceAll_cons_no_match (c : Char) (t pat r : LC) (hp : pat ≠ [])
    (h : pat.isPrefixOf (c :: t) = false) :
    replaceAll (c :: t) pat r = c :: replaceAll t pat r := by
  have hpe : pat.isEmpty = false := by
    cases pat with
    | nil => exact absurd rfl hp
    | cons c cs => rfl
  simp only [replaceAll, hpe, Bool.false_eq_true, if_false, List.length_cons]
  simp only [replaceAllF, h, Bool.false_eq_true, if_false]

theorem replaceAll_nil (pat r : LC) : replaceAll [] pat r = [] := by
  cases hpe : pat.isEmpty
  · have hp : pat ≠ [] := by
      cases pat with
      | nil => simp at hpe
      | cons c cs => simp
    simp [replaceAll, hpe, replaceAllF_nil pat r hp]
  · simp [replaceAll, hpe]

/-- Python `str.replace` rewrites the leftmost occurrence of the pattern:
if no occurrence starts before the displayed one, the text decomposes as
shown. -/
theorem replaceAll_first (pat r : LC) (hp : pat ≠ []) :
    ∀ a b : LC, noEarlyOccur a pat b →
      replaceAll (a ++ pat ++ b) pat r = a ++ r ++ replaceAll b pat r := by
  intro a
  induction a with
  | nil =>
    intro b _
    have h : pat.isPrefixOf (pat ++ b) :=
      List.isPrefixOf_iff_prefix.mpr (List.prefix_append pat b)
    simp only [List.nil_append]
    rw [replaceAll_head_match _ pat r hp h, List.drop_left]
  | cons c a' ih =>
    intro b hocc
    have h0 : pat.isPrefixOf ((c :: a') ++ pat ++ b) = false := by
      have := hocc 0 (by simp)
      simpa using this
    have hstep : replaceAll ((c :: a') ++ pat ++ b) pat r
        = c :: replaceAll (a' ++ pat ++ b) pat r := by
      have : (c :: a') ++ pat ++ b = c :: (a' ++ pat ++ b) := by simp
      rw [this] at h0 ⊢
      exact replaceAll_cons_no_match c _ pat r hp h0
    rw [hstep, ih b ?_]
    · simp
    · intro k hk
      have := hocc (k + 1) (by simp; omega)
      simpa using this

/-- Any non-hyphen head is transparent to `noHyphenDigit`. -/
theorem noHyphenDigit_cons_of_ne (b : Char) (r : LC) (h : b ≠ '-') :
    noHyphenDigit (b :: r) = noHyphenDigit r := by
  cases r with
  | nil => rfl
  | cons c rs =>
    have hb : (b == '-') = false := by
      simpa using h
    simp [noHyphenDigit, hb]

/-- The output of `hyphenSub` starts with the same character as its input. -/
theorem hyphenSub_singleton (c : Char) : hyphenSub [c] = [c] := by
  rw [hyphenSub.eq_3 c [] (fun _ _ _ h => by cases h), hyphenSub.eq_1]

theorem hyphenSub_cons_head (c : Char) (rest : LC) :
    ∃ t : LC, hyphenSub (c :: rest) = c :: t := by
  by_cases hc : c = '-'
  · subst hc
    cases rest with
    | nil => exact ⟨[], hyphenSub_singleton '-'⟩
    | cons c2 rs =>
      by_cases hd : c2.isDigit
      · exact ⟨'\x7b' :: '#' :: '\x7d' :: hyphenSub rs, by simp [hyphenSub, hd]⟩
      · exact ⟨hyphenSub (c2 :: rs), by simp [hyphenSub, hd]⟩
  · cases rest with
    | nil => exact ⟨[], hyphenSub_singleton c⟩
    | cons c2 rs => exact ⟨hyphenSub (c2 :: rs), by simp [hyphenSub, hc]⟩

/-- The hyphen-digit substitution leaves no hyphen-digit pair behind. -/
theorem noHyphenDigit_hyphenSub (l : LC) : noHyphenDigit (hyphenSub l) = true := by
  induction l using hyphenSub.induct with
  | case1 => rfl
  | case2 c rest hd ih =>
    rw [hyphenSub.eq_2]
    simp only [hd, if_true]
    have hbd : ('\x7b' : Char).isDigit = false := by decide
    have h1 : noHyphenDigit ('-' :: '\x7b' :: '#' :: '\x7d' :: hyphenSub rest)
        = noHyphenDigit ('\x7b' :: '#' :: '\x7d' :: hyphenSub rest) := by
      simp [noHyphenDigit, hbd]
    rw [h1, noHyphenDigit_cons_of_ne _ _ (by decide),
      noHyphenDigit_cons_of_ne _ _ (by decide),
      noHyphenDigit_cons_of_ne _ _ (by decide)]
    exact ih
  | case3 c rest hd ih =>
    rw [hyphenSub.eq_2]
    have hcd : c.isDigit = false := Bool.eq_false_iff.mpr hd
    simp only [hcd, Bool.false_eq_true, if_false]
    obtain ⟨t, ht⟩ := hyphenSub_cons_head c rest
    rw [ht]
    have h2 : noHyphenDigit ('-' :: c :: t) = noHyphenDigit (c :: t) := by
      simp [noHyphenDigit, hcd]
    rw [h2, ← ht]
    exact ih
  | case4 c rest h ih =>
    by_cases hc : c = '-'
    · subst hc
      cases rest with
      | nil => rw [hyphenSub_singleton]; rfl
      | cons c2 rs => exact (h c2 rs rfl rfl).elim
    · rw [hyphenSub.eq_3 c rest (fun c1 r1 hcc _ => hc hcc),
        noHyphenDigit_cons_of_ne c _ hc]
      exact ih

/-- Behaviour of the hyphen-digit substitution at a hyphen-digit site
preceded by already-clean text: exactly one digit is consumed and the scan
resumes right after it. -/
theorem hyphenSub_append_digit :
    ∀ (n : Nat) (pre : LC), pre.length ≤ n → noHyphenDigit pre = true →
      pre.getLast? ≠ some '-' →
      ∀ (dg : Char) (rest : LC), dg.isDigit = true →
        hyphenSub (pre ++ '-' :: dg :: rest)
          = pre ++ '-' :: '\x7b' :: '#' :: '\x7d' :: hyphenSub rest := by
  intro n
  induction n with
  | zero =>
    intro pre hlen _ _ dg rest hdg
    have : pre = [] := List.length_eq_zero.mp (Nat.le_zero.mp hlen)
    subst this
    simp [hyphenSub, hdg]
  | succ n ih =>
    intro pre hlen hnohd hlast dg rest hdg
    cases pre with
    | nil => simp [hyphenSub, hdg]
    | cons c pre' =>
      cases pre' with
      | nil =>
        have hc : c ≠ '-' := by
          intro h
          subst h
          exact hlast rfl
        have hsh : ([c] ++ '-' :: dg :: rest) = c :: '-' :: dg :: rest := rfl
        rw [hsh, hyphenSub.eq_3 c ('-' :: dg :: rest) (fun c1 r1 hcc _ => hc hcc)]
        simp [hyphenSub, hdg]
      | cons e pre'' =>
        have hlast' : (e :: pre'').getLast? ≠ some '-' := by
          rw [List.getLast?_cons_cons] at hlast
          exact hlast
        have hlen' : (e :: pre'').length ≤ n := by
          simp at hlen ⊢
          omega
        by_cases hc : c = '-'
        · subst hc
          have hparts : ('\x2d'.isDigit = false) := by decide
          have hsplit := hnohd
          simp only [noHyphenDigit, Bool.and_eq_true, Bool.not_eq_true',
            Bool.and_eq_false_iff, beq_self_eq_true] at hsplit
          have he : e.isDigit = false := by
            rcases hsplit.1 with h | h
            · simp at h
            · exact h
          have htail : noHyphenDigit (e :: pre'') = true := hsplit.2
          have hsh : (('-' :: e :: pre'') ++ '-' :: dg :: rest)
              = '-' :: e :: (pre'' ++ '-' :: dg :: rest) := by simp
          rw [hsh, hyphenSub.eq_2]
          simp only [he, Bool.false_eq_true, if_false]
          have hsh2 : (e :: (pre'' ++ '-' :: dg :: rest))
              = ((e :: pre'') ++ '-' :: dg :: rest) := by simp
          rw [hsh2, ih (e :: pre'') hlen' htail hlast' dg rest hdg]
          simp
        · have htail : noHyphenDigit (e :: pre'') = true := by
            have := hnohd
            simp only [noHyphenDigit, Bool.and_eq_true] at this
            exact this.2
          have hsh : ((c :: e :: pre'') ++ '-' :: dg :: rest)
              = c :: ((e :: pre'') ++ '-' :: dg :: rest) := by simp
          rw [hsh, hyphenSub.eq_3 c _ (fun c1 r1 hcc _ => hc hcc),
            ih (e :: pre'') hlen' htail hlast' dg rest hdg]
          simp

/-- The final step of `_replace_placeholders` is the hyphen-digit
substitution, so its output never contains a hyphen-digit pair. -/
theorem noHyphenDigit_replace_placeholders (path : LC) (su se : Option LC) :
    noHyphenDigit (replace_placeholders path su se) = true :=
  noHyphenDigit_hyphenSub _

/-- C2 counterexample: for the path
`sub-01/ses-02/func/sub-01_ses-02_run-12_bold.nii.gz` (subject `01`,
session `02`), the JSON key written by `prepare_json_contents` turns the
hyphen-digit sequence `-12` into `-{#}2`, not into `-{#}` as the claim
states: the key contains the substring `-{#}2_` and no substring `-{#}_`. -/
theorem prepare_json_contents_hyphen_digit_counterexample :
    prepare_json_contents cex2Parse ("image03_inputs.func.run-12_bold.json".data) [cex2Path]
      = [(("sub-\x7bSUBJECT\x7d/ses-\x7bSESSION\x7d/func/sub-\x7bSUBJECT\x7d_ses-\x7bSESSION\x7d_run-\x7b#\x7d2_bold.nii.gz".data),
          ("sub-\x7bSUBJECT\x7d/ses-\x7bSESSION\x7d/func/sub-\x7bSUBJECT\x7d_ses-\x7bSESSION\x7d_run-\x7b#\x7d2_bold.nii.gz".data))] ∧
    pyFind ("sub-\x7bSUBJECT\x7d/ses-\x7bSESSION\x7d/func/sub-\x7bSUBJECT\x7d_ses-\x7bSESSION\x7d_run-\x7b#\x7d2_bold.nii.gz".data)
      ("-\x7b#\x7d2_".data) ≠ -1 ∧
    pyFind ("sub-\x7bSUBJECT\x7d/ses-\x7bSESSION\x7d/func/sub-\x7bSUBJECT\x7d_ses-\x7bSESSION\x7d_run-\x7b#\x7d2_bold.nii.gz".data)
      ("-\x7b#\x7d_".data) = -1 := by
  refine ⟨by decide, by decide, by decide⟩

/-- C2 (amended): the written JSON key replaces the subject and session
ids by the placeholder tokens — each `str.replace` rewriting the leftmost
occurrence of its pattern as displayed — and rewrites a hyphen followed by
a digit to `-{#}` consuming only that single digit (so `-12` becomes
`-{#}2`, not `-{#}`); consequently the final key never contains a hyphen
immediately followed by a digit. -/
theorem replace_placeholders_amended (a pat b r pre rest path : LC) (dg : Char)
    (su se : Option LC)
    (hp : pat ≠ []) (hocc : noEarlyOccur a pat b)
    (hnohd : noHyphenDigit pre = true) (hlast : pre.getLast? ≠ some '-')
    (hdg : dg.isDigit = true) :
    replaceAll (a ++ pat ++ b) pat r = a ++ r ++ replaceAll b pat r ∧
    hyphenSub (pre ++ '-' :: dg :: rest)
      = pre ++ '-' :: '\x7b' :: '#' :: '\x7d' :: hyphenSub rest ∧
    noHyphenDigit (replace_placeholders path su se) = true :=
  ⟨replaceAll_first pat r hp a b hocc,
   hyphenSub_append_digit pre.length pre le_rfl hnohd hlast dg rest hdg,
   noHyphenDigit_replace_placeholders path su se⟩

/-- Witness for the amended C2 theorem at concrete inputs. -/
theorem replace_placeholders_amended_witness :
    replaceAll (("sub-".data) ++ ("01".data) ++ ("/x.nii".data)) ("01".data) subjectTok
      = ("sub-".data) ++ subjectTok ++ replaceAll ("/x.nii".data) ("01".data) subjectTok ∧
    hyphenSub (("run".data) ++ '-' :: '1' :: ("2_bold".data))
      = ("run".data) ++ '-' :: '\x7b' :: '#' :: '\x7d' :: hyphenSub ("2_bold".data) ∧
    noHyphenDigit (replace_placeholders cex2Path (some ("01".data)) (some ("02".data))) = true :=
  replace_placeholders_amended ("sub-".data) ("01".data) ("/x.nii".data) subjectTok
    ("run".data) ("2_bold".data) cex2Path '1' (some ("01".data)) (some ("02".data))
    (by decide) (by decide) (by decide) (by decide) (by decide)

/-- C9: `prepare_json_contents` reads nothing of the file name but its `X`
component; two names with the same extracted `X` produce identical JSON
contents for the same file list. -/
theorem prepare_json_contents_depends_only_on_X
    (parse : LC → List (LC × LC)) (files : List LC) (n1 n2 : LC)
    (h : (extract_file_name_components n1).map (fun t => t.2.1)
       = (extract_file_name_components n2).map (fun t => t.2.1)) :
    prepare_json_contents parse n1 files = prepare_json_contents parse n2 files := by
  simp only [prepare_json_contents]
  rw [h]

/-- Witness for C9: two generated names sharing `X = inputs` but differing
in datatype and suffix-variant yield byte-identical JSON contents. -/
theorem prepare_json_contents_depends_only_on_X_witness :
    prepare_json_contents cex2Parse ("image03_inputs.func.run-12_bold.json".data) [cex2Path]
      = prepare_json_contents cex2Parse ("image03_inputs.anat.T1w.json".data) [cex2Path] :=
  prepare_json_contents_depends_only_on_X cex2Parse [cex2Path] _ _ (by decide)

/-- A nonempty pattern that matches at no position of `s` is never found. -/
theorem pyFindAux_none (pat : LC) (hpat : pat ≠ []) :
    ∀ (s : LC) (i : Nat), (∀ k, k < s.length → pat.isPrefixOf (s.drop k) = false) →
      pyFindAux pat s i = none := by
  intro s
  induction s with
  | nil =>
    intro i _
    have hf : pat.isPrefixOf [] = false := by
      cases pat with
      | nil => exact absurd rfl hpat
      | cons c cs => rfl
    simp [pyFindAux, hf]
  | cons c rest ih =>
    intro i h
    have h0 : pat.isPrefixOf (c :: rest) = false := by
      simpa using h 0 (by simp)
    simp only [pyFindAux, h0, Bool.false_eq_true, if_false]
    exact ih (i + 1) (fun k hk => by
      simpa using h (k + 1) (by simp; omega))

/-- Dropping all but the last element leaves exactly the last element. -/
theorem drop_length_sub_one (l : LC) (a : Char) (h : l.getLast? = some a) :
    l.drop (l.length - 1) = [a] := by
  induction l with
  | nil => simp at h
  | cons c rest ih =>
    cases rest with
    | nil =>
      simp at h
      simp [h]
    | cons e rs =>
      rw [List.getLast?_cons_cons] at h
      have hrec := ih h
      simp only [List.length_cons]
      have hn : rs.length + 1 + 1 - 1 = rs.length + 1 := by omega
      rw [hn]
      show (e :: rs).drop (rs.length) = [a]
      have hlen : (e :: rs).length - 1 = rs.length := by simp
      rw [hlen] at hrec
      exact hrec

/-- C10: when `X` is `inputs` (resp. `derivatives`) and the file path does
not contain `sub-` (resp. `derivatives`), `str.find` returns `-1`, and the
Python slice `file_path[-1:]` truncates the path to its final character
only, so the JSON key is derived from that one-character path. -/
theorem sub_path_truncated_to_last_char (p q : LC) (a b : Char)
    (hpl : p.getLast? = some a) (hql : q.getLast? = some b)
    (h1 : ∀ k, k < p.length → ("sub-".data).isPrefixOf (p.drop k) = false)
    (h2 : ∀ k, k < q.length → ("derivatives".data).isPrefixOf (q.drop k) = false) :
    pyFind p ("sub-".data) = -1 ∧
    pyFind q ("derivatives".data) = -1 ∧
    subPathFor (some ("inputs".data)) p = [a] ∧
    subPathFor (some ("derivatives".data)) q = [b] := by
  have hplen : 1 ≤ p.length := by
    cases p with
    | nil => simp at hpl
    | cons c cs => simp
  have hqlen : 1 ≤ q.length := by
    cases q with
    | nil => simp at hql
    | cons c cs => simp
  have hf1 : pyFindAux ("sub-".data) p 0 = none :=
    pyFindAux_none _ (by decide) p 0 h1
  have hf2 : pyFindAux ("derivatives".data) q 0 = none :=
    pyFindAux_none _ (by decide) q 0 h2
  have hpf1 : pyFind p ("sub-".data) = -1 := by simp [pyFind, hf1]
  have hpf2 : pyFind q ("derivatives".data) = -1 := by simp [pyFind, hf2]
  have hslice : ∀ (s : LC), 1 ≤ s.length → pySliceFrom s (-1) = s.drop (s.length - 1) := by
    intro s hs
    simp only [pySliceFrom]
    rw [if_pos (by decide)]
    congr 1
    omega
  refine ⟨hpf1, hpf2, ?_, ?_⟩
  · have e1 : subPathFor (some ("inputs".data)) p
        = pySliceFrom p (pyFind p ("sub-".data)) := by
      simp [subPathFor]
    rw [e1, hpf1, hslice p hplen]
    exact drop_length_sub_one p a hpl
  · have e2 : subPathFor (some ("derivatives".data)) q
        = pySliceFrom q (pyFind q ("derivatives".data)) := by
      simp [subPathFor]
    rw [e2, hpf2, hslice q hqlen]
    exact drop_length_sub_one q b hql

/-- Witness for C10 at concrete paths without the searched prefixes. -/
theorem sub_path_truncated_to_last_char_witness :
    pyFind ("data/anat/x01.nii".data) ("sub-".data) = -1 ∧
    pyFind ("raw/anat/y.nii".data) ("derivatives".data) = -1 ∧
    subPathFor (some ("inputs".data)) ("data/anat/x01.nii".data) = ['i'] ∧
    subPathFor (some ("derivatives".data)) ("raw/anat/y.nii".data) = ['i'] :=
  sub_path_truncated_to_last_char ("data/anat/x01.nii".data) ("raw/anat/y.nii".data)
    'i' 'i' (by decide) (by decide) (by decide) (by decide)

/-- C5: a generated file name parses to some `(A, X, Y, Z)`; when its
datatype component `Y` is not one of the five keys of `image_modality`,
the lookup `self.image_modality[Y]` raises an uncaught `KeyError` —
modelled as `none` — before anything is written, and the source contains
no handler (no `try`/`except` anywhere), so the run terminates. -/
theorem prepare_yaml_contents_unknown_datatype_crash
    (name A X Y Z : LC)
    (he : extract_file_name_components name = some (A, X, Y, Z))
    (hY : Y ∉ [("pet".data), ("anat".data), ("func".data), ("dwi".data), ("fmap".data)]) :
    prepare_yaml_contents name = none := by
  simp only [List.mem_cons, List.mem_singleton, not_or] at hY
  obtain ⟨hn1, hn2, hn3, hn4, hn5, -⟩ := hY
  have e1 : ((("pet".data) : LC) == Y) = false := beq_eq_false_iff_ne.mpr (Ne.symm hn1)
  have e2 : ((("anat".data) : LC) == Y) = false := beq_eq_false_iff_ne.mpr (Ne.symm hn2)
  have e3 : ((("func".data) : LC) == Y) = false := beq_eq_false_iff_ne.mpr (Ne.symm hn3)
  have e4 : ((("dwi".data) : LC) == Y) = false := beq_eq_false_iff_ne.mpr (Ne.symm hn4)
  have e5 : ((("fmap".data) : LC) == Y) = false := beq_eq_false_iff_ne.mpr (Ne.symm hn5)
  have hmod : tableGet image_modality Y = none := by
    simp [tableGet, image_modality, List.find?, e1, e2, e3, e4, e5]
  simp only [prepare_yaml_contents, he]
  simp [hmod]

/-- Witness for C5: the name `image03_inputs.eeg.T1w.yaml` (datatype
`eeg`) makes `prepare_yaml_contents` crash without writing. -/
theorem prepare_yaml_contents_unknown_datatype_crash_witness :
    prepare_yaml_contents ("image03_inputs.eeg.T1w.yaml".data) = none :=
  prepare_yaml_contents_unknown_datatype_crash
    ("image03_inputs.eeg.T1w.yaml".data) ("image03".data) ("inputs".data)
    ("eeg".data) ("T1w".data) (by decide) (by decide)

/-- The inner entity fold of `fetch_Z_value` only grows the set. -/
theorem zInsertLoop_subset (es : List (LC × LC)) :
    ∀ (l : List (LC × LC)) (acc : Finset LC), acc ⊆ zInsertLoop es l acc := by
  intro l
  induction l with
  | nil => intro acc; exact Finset.Subset.refl acc
  | cons kv rest ih =>
    intro acc
    have hstep : acc ⊆ (if ¬(zOfEntity es kv.1 kv.2).isEmpty
        then insert (zOfEntity es kv.1 kv.2) acc else acc) := by
      by_cases h : ¬(zOfEntity es kv.1 kv.2).isEmpty
      · rw [if_pos h]
        exact Finset.subset_insert _ acc
      · rw [if_neg h]
    exact hstep.trans (ih _)

/-- One step of `fetch_Z_value`'s file loop only grows the set. -/
theorem fileZStep_mono (es : List (LC × LC)) (acc acc2 : Finset LC)
    (h : fileZStep es acc = some acc2) : acc ⊆ acc2 := by
  have hsub : acc ⊆ zInsertLoop es (es.filter (fun kv => ¬kv.1 ∈ ignore_list)) acc :=
    zInsertLoop_subset es _ acc
  unfold fileZStep at h
  by_cases h2 : zInsertLoop es (es.filter (fun kv => ¬kv.1 ∈ ignore_list)) acc = ∅
  · rw [if_pos h2] at h
    cases hs : tableGet es ("suffix".data) with
    | none => rw [hs] at h; cases h
    | some s =>
      cases hd : tableGet es ("datatype".data) with
      | none => rw [hs, hd] at h; cases h
      | some dt =>
        rw [hs, hd] at h
        have h3 := Option.some.inj h
        subst h3
        by_cases hne : s ≠ dt
        · rw [if_pos hne]
          exact hsub.trans (Finset.subset_insert _ _)
        · rw [if_neg hne]
          exact hsub
  · rw [if_neg h2] at h
    have h3 := Option.some.inj h
    subst h3
    exact hsub

/-- The file loop of `fetch_Z_value` only grows the set. -/
theorem zLoop_mono (parse : LC → List (LC × LC)) :
    ∀ (files : List LC) (acc Z : Finset LC),
      zLoop parse files acc = some Z → acc ⊆ Z := by
  intro files
  induction files with
  | nil =>
    intro acc Z h
    have := Option.some.inj h
    subst this
    exact Finset.Subset.refl acc
  | cons f rest ih =>
    intro acc Z h
    simp only [zLoop] at h
    cases hstep : fileZStep (parse f) acc with
    | none => rw [hstep] at h; cases h
    | some acc2 =>
      rw [hstep] at h
      exact (fileZStep_mono _ _ _ hstep).trans (ih acc2 Z h)

/-- The file loop of `fetch_Z_value` splits along list concatenation. -/
theorem zLoop_append (parse : LC → List (LC × LC)) :
    ∀ (l1 l2 : List LC) (acc : Finset LC),
      zLoop parse (l1 ++ l2) acc
        = match zLoop parse l1 acc with
          | some a => zLoop parse l2 a
          | none => none := by
  intro l1
  induction l1 with
  | nil => intro l2 acc; rfl
  | cons f rest ih =>
    intro l2 acc
    simp only [List.cons_append, zLoop]
    cases hstep : fileZStep (parse f) acc with
    | none => rfl
    | some acc2 => exact ih l2 acc2

/-- Files with no non-ignored entities and equal suffix and datatype leave
the accumulated set empty. -/
theorem zLoop_no_contribution (parse : LC → List (LC × LC)) :
    ∀ (l : List LC),
      (∀ g ∈ l, (parse g).filter (fun kv => ¬kv.1 ∈ ignore_list) = [] ∧
          ∃ v, tableGet (parse g) ("suffix".data) = some v ∧
               tableGet (parse g) ("datatype".data) = some v) →
      zLoop parse l ∅ = some ∅ := by
  intro l
  induction l with
  | nil => intro _; rfl
  | cons g rest ih =>
    intro h
    obtain ⟨hfil, v, hs, hd⟩ := h g (by simp)
    have hstep : fileZStep (parse g) ∅ = some ∅ := by
      unfold fileZStep
      rw [hfil]
      simp [zInsertLoop, hs, hd]
    simp only [zLoop, hstep]
    exact ih (fun g2 hg2 => h g2 (by simp [hg2]))

/-- C1 counterexample: in the two-file list `[f1, f2]`, the file `f2` has
no keys outside the ignore list and suffix `T1w` different from its
datatype `anat`, yet its suffix is not in the returned set, because `f1`
already contributed `acq-x_bold` and the fallback tests the accumulated
set `Z`, not the current file's own entities. -/
theorem fetch_Z_value_fallback_counterexample :
    fetch_Z_value cex1Parse [("f1".data), ("f2".data)] = some {("acq-x_bold".data)} ∧
    (cex1Parse ("f2".data)).filter (fun kv => ¬kv.1 ∈ ignore_list) = [] ∧
    tableGet (cex1Parse ("f2".data)) ("suffix".data) = some ("T1w".data) ∧
    tableGet (cex1Parse ("f2".data)) ("datatype".data) = some ("anat".data) ∧
    ("T1w".data) ∉ ({("acq-x_bold".data)} : Finset LC) := by
  refine ⟨by decide, by decide, by decide, by decide, by decide⟩

/-- C1 (amended): a file whose parsed entities contain no keys outside the
ignore list contributes its suffix alone whenever that suffix differs from
its datatype, provided the accumulated set is still empty when the file is
processed — in particular when every earlier file in the list also has no
non-ignored entities and has suffix equal to its datatype.  (Once any file
has contributed, the fallback is dead code for all later files.) -/
theorem fetch_Z_value_fallback_amended
    (parse : LC → List (LC × LC)) (pre post : List LC) (f : LC)
    (Z : Finset LC) (s dt : LC)
    (hpre : ∀ g ∈ pre, (parse g).filter (fun kv => ¬kv.1 ∈ ignore_list) = [] ∧
        ∃ v, tableGet (parse g) ("suffix".data) = some v ∧
             tableGet (parse g) ("datatype".data) = some v)
    (hf1 : (parse f).filter (fun kv => ¬kv.1 ∈ ignore_list) = [])
    (hf2 : tableGet (parse f) ("suffix".data) = some s)
    (hf3 : tableGet (parse f) ("datatype".data) = some dt)
    (hne : s ≠ dt)
    (hZ : fetch_Z_value parse (pre ++ f :: post) = some Z) :
    s ∈ Z := by
  have hpreRun : zLoop parse pre ∅ = some ∅ := zLoop_no_contribution parse pre hpre
  have hstepf : fileZStep (parse f) ∅ = some {s} := by
    unfold fileZStep
    rw [hf1]
    simp [zInsertLoop, hf2, hf3, hne]
  unfold fetch_Z_value at hZ
  rw [zLoop_append] at hZ
  rw [hpreRun] at hZ
  simp only [zLoop, hstepf] at hZ
  exact zLoop_mono parse post {s} Z hZ (Finset.mem_singleton_self s)

/-- Witness for the amended C1 theorem: with `g1` (equal suffix and
datatype) before `f2`, the suffix `T1w` of `f2` is in the returned set. -/
theorem fetch_Z_value_fallback_amended_witness :
    ("T1w".data) ∈ ({("T1w".data)} : Finset LC) :=
  fetch_Z_value_fallback_amended cex1Parse [("g1".data)] [] ("f2".data)
    {("T1w".data)} ("T1w".data) ("anat".data)
    (fun g hg => by
      simp only [List.mem_singleton] at hg
      subst hg
      exact ⟨by decide, ("anat".data), by decide, by decide⟩)
    (by decide) (by decide) (by decide) (by decide) (by decide)

/-- Splitting at the first dot is unambiguous when both left parts are
dot-free. -/
theorem dotfree_split (x1 : LC) :
    ∀ (x2 a b : LC), '.' ∉ x1 → '.' ∉ x2 →
      x1 ++ '.' :: a = x2 ++ '.' :: b → x1 = x2 ∧ a = b := by
  induction x1 with
  | nil =>
    intro x2 a b _ h2 h
    cases x2 with
    | nil =>
      simp only [List.nil_append] at h
      exact ⟨rfl, (List.cons.injEq _ _ _ _).mp h |>.2⟩
    | cons c2 r2 =>
      simp only [List.nil_append, List.cons_append] at h
      obtain ⟨hc, -⟩ := (List.cons.injEq _ _ _ _).mp h
      exact absurd (by simp [← hc]) h2
  | cons c1 r1 ih =>
    intro x2 a b h1 h2 h
    cases x2 with
    | nil =>
      simp only [List.cons_append, List.nil_append] at h
      obtain ⟨hc, -⟩ := (List.cons.injEq _ _ _ _).mp h
      exact absurd (by simp [hc]) h1
    | cons c2 r2 =>
      simp only [List.cons_append] at h
      obtain ⟨hc, ht⟩ := (List.cons.injEq _ _ _ _).mp h
      have h1r : '.' ∉ r1 := fun hm => h1 (by simp [hm])
      have h2r : '.' ∉ r2 := fun hm => h2 (by simp [hm])
      obtain ⟨he, ha⟩ := ih r2 a b h1r h2r ht
      exact ⟨by rw [hc, he], ha⟩

/-- Generated JSON names determine their `(X, Y, Z)` components when the
components are dot-free. -/
theorem jsonNameOf_inj (x1 y1 z1 x2 y2 z2 : LC)
    (hx1 : '.' ∉ x1) (hy1 : '.' ∉ y1) (hz1 : '.' ∉ z1)
    (hx2 : '.' ∉ x2) (hy2 : '.' ∉ y2) (hz2 : '.' ∉ z2)
    (h : jsonNameOf x1 y1 z1 = jsonNameOf x2 y2 z2) :
    x1 = x2 ∧ y1 = y2 ∧ z1 = z2 := by
  unfold jsonNameOf at h
  simp only [List.append_assoc, List.cons_append, List.nil_append,
    List.cons.injEq, true_and] at h
  obtain ⟨hx, h'⟩ := dotfree_split x1 x2 _ _ hx1 hx2 h
  obtain ⟨hy, h''⟩ := dotfree_split y1 y2 _ _ hy1 hy2 h'
  obtain ⟨hz, -⟩ := dotfree_split z1 z2 _ _ hz1 hz2 h''
  exact ⟨hx, hy, hz⟩

/-- C7: each generated JSON name shares its stem `image03_<X>.<Y>.<Z>`
with a generated YAML name, and for dot-free components the generated name
determines the `(X, Y, Z)` triple, so distinct triples never collide. -/
theorem file_names_paired_and_injective
    (x y x1 y1 z1 x2 y2 z2 : LC) (zs : List LC)
    (hx1 : '.' ∉ x1) (hy1 : '.' ∉ y1) (hz1 : '.' ∉ z1)
    (hx2 : '.' ∉ x2) (hy2 : '.' ∉ y2) (hz2 : '.' ∉ z2) :
    (∀ n ∈ (prepare_file_names x y zs).1, ∃ st,
        n = st ++ (".json".data) ∧ st ++ (".yaml".data) ∈ (prepare_file_names x y zs).2) ∧
    (jsonNameOf x1 y1 z1 = jsonNameOf x2 y2 z2 → x1 = x2 ∧ y1 = y2 ∧ z1 = z2) := by
  constructor
  · intro n hn
    simp only [prepare_file_names, List.mem_map] at hn
    obtain ⟨z, hz, rfl⟩ := hn
    refine ⟨("image03_".data) ++ x ++ '.' :: y ++ '.' :: z, ?_, ?_⟩
    · simp [jsonNameOf, List.append_assoc]
    · simp only [prepare_file_names, List.mem_map]
      exact ⟨z, hz, by simp [yamlNameOf, List.append_assoc]⟩
  · exact jsonNameOf_inj x1 y1 z1 x2 y2 z2 hx1 hy1 hz1 hx2 hy2 hz2

/-- Witness for C7 at concrete components. -/
theorem file_names_paired_and_injective_witness :
    (∀ n ∈ (prepare_file_names ("inputs".data) ("anat".data) [("T1w".data)]).1, ∃ st,
        n = st ++ (".json".data) ∧
        st ++ (".yaml".data) ∈ (prepare_file_names ("inputs".data) ("anat".data) [("T1w".data)]).2) ∧
    (jsonNameOf ("inputs".data) ("anat".data) ("T1w".data)
        = jsonNameOf ("inputs".data) ("anat".data) ("T1w".data) →
      ("inputs".data) = ("inputs".data) ∧ ("anat".data) = ("anat".data) ∧
      ("T1w".data) = ("T1w".data)) :=
  file_names_paired_and_injective ("inputs".data) ("anat".data)
    ("inputs".data) ("anat".data) ("T1w".data)
    ("inputs".data) ("anat".data) ("T1w".data) [("T1w".data)]
    (by decide) (by decide) (by decide) (by decide) (by decide) (by decide)

/-- Folding the write-update function from an arbitrary initial value:
the writes win when they cover the key, else the initial value remains. -/
theorem toMap_init {β : Type} (k : LC) :
    ∀ (l : List (LC × β)) (init : Option β),
      l.foldl (fun acc p => if p.1 = k then some p.2 else acc) init
        = match toMap l k with
          | some v => some v
          | none => init := by
  intro l
  induction l with
  | nil => intro init; rfl
  | cons q rest ih =>
    intro init
    show rest.foldl _ (if q.1 = k then some q.2 else init) = _
    rw [ih]
    have hq : toMap (q :: rest) k
        = match toMap rest k with
          | some v => some v
          | none => if q.1 = k then some q.2 else none := by
      show rest.foldl _ (if q.1 = k then some q.2 else none) = _
      rw [ih]
    rw [hq]
    cases toMap rest k with
    | some v => rfl
    | none =>
      by_cases h : q.1 = k
      · simp [h]
      · simp [h]

/-- The final state of a cons of writes: the later writes win, else the
head write answers for its own name. -/
theorem toMap_cons {β : Type} (q : LC × β) (l : List (LC × β)) (k : LC) :
    toMap (q :: l) k
      = match toMap l k with
        | some v => some v
        | none => if q.1 = k then some q.2 else none := by
  have h := toMap_init k l (if q.1 = k then some q.2 else none)
  exact h

/-- The final state after appended write lists: later writes win. -/
theorem toMap_append {β : Type} (a b : List (LC × β)) (k : LC) :
    toMap (a ++ b) k
      = match toMap b k with
        | some v => some v
        | none => toMap a k := by
  show (a ++ b).foldl _ none = _
  rw [List.foldl_append]
  exact toMap_init k b (toMap a k)

/-- Writes whose contents are a function of their names: the final state
maps exactly the written names, each to its content. -/
theorem toMap_map_keyed {β : Type} (F : LC → β) :
    ∀ (names : List LC) (k : LC),
      toMap (names.map (fun n => (n, F n))) k
        = if k ∈ names then some (F k) else none := by
  intro names
  induction names with
  | nil => intro k; simp [toMap]
  | cons n rest ih =>
    intro k
    have hcons : toMap ((n, F n) :: rest.map (fun m => (m, F m))) k
        = match toMap (rest.map (fun m => (m, F m))) k with
          | some v => some v
          | none => if n = k then some (F n) else none := by
      show (rest.map _).foldl _ (if n = k then some (F n) else none) = _
      rw [toMap_init]
    simp only [List.map_cons]
    rw [hcons, ih k]
    by_cases hk : k ∈ rest
    · simp [hk]
    · simp only [hk, if_false]
      by_cases hn : n = k
      · subst hn
        simp
      · have hnk : ¬k = n := fun h2 => hn h2.symm
        have hkn : k ∉ n :: rest := by simp [hk, hnk]
        simp [hn, hkn]

/-- A successful YAML `mapM` implies every listed name has a content. -/
theorem yaml_mapM_mem_some :
    ∀ (names : List LC) (yw : List (LC × YamlRec)),
      names.mapM (fun n => (prepare_yaml_contents n).map (fun c => (n, c))) = some yw →
      ∀ k ∈ names, ∃ c, prepare_yaml_contents k = some c := by
  intro names
  induction names with
  | nil => intro yw _ k hk; cases hk
  | cons n rest ih =>
    intro yw h k hk
    rw [List.mapM_cons] at h
    cases hn : prepare_yaml_contents n with
    | none => rw [hn] at h; simp at h
    | some c =>
      rw [hn] at h
      cases hrest : rest.mapM (fun m => (prepare_yaml_contents m).map (fun c2 => (m, c2))) with
      | none => rw [hrest] at h; simp at h
      | some ps =>
        rcases List.mem_cons.mp hk with hkn | hkr
        · subst hkn
          exact ⟨c, hn⟩
        · exact ih ps hrest k hkr

/-- A successful YAML `mapM` produces one write per name, keyed by the
name, with the content `prepare_yaml_contents` assigns to that name. -/
theorem toMap_yaml_mapM :
    ∀ (names : List LC) (yw : List (LC × YamlRec)),
      names.mapM (fun n => (prepare_yaml_contents n).map (fun c => (n, c))) = some yw →
      ∀ k, toMap yw k = if k ∈ names then prepare_yaml_contents k else none := by
  intro names
  induction names with
  | nil =>
    intro yw h k
    rw [List.mapM_nil] at h
    have : ([] : List (LC × YamlRec)) = yw := Option.some.inj h
    subst this
    simp [toMap]
  | cons n rest ih =>
    intro yw h k
    rw [List.mapM_cons] at h
    cases hn : prepare_yaml_contents n with
    | none => rw [hn] at h; simp at h
    | some c =>
      rw [hn] at h
      cases hrest : rest.mapM (fun m => (prepare_yaml_contents m).map (fun c2 => (m, c2))) with
      | none => rw [hrest] at h; simp at h
      | some ps =>
        rw [hrest] at h
        simp only [Option.map_some', Option.some_bind, Option.bind_some] at h
        have hyw : (n, c) :: ps = yw := by simpa using h
        subst hyw
        rw [toMap_cons (n, c) ps k, ih ps hrest k]
        by_cases hk : k ∈ rest
        · obtain ⟨ck, hck⟩ := yaml_mapM_mem_some rest ps hrest k hk
          simp [hk, hck]
        · simp only [hk, if_false]
          by_cases hkn : n = k
          · subst hkn
            simp [hn]
          · have hnk : ¬k = n := fun h2 => hkn h2.symm
            have hknn : k ∉ n :: rest := by
              simp [hk, hnk]
            simp [hkn, hknn]

/-- A successful YAML `mapM` writes exactly the given names, in order. -/
theorem yaml_mapM_keys :
    ∀ (names : List LC) (yw : List (LC × YamlRec)),
      names.mapM (fun n => (prepare_yaml_contents n).map (fun c => (n, c))) = some yw →
      yw.map Prod.fst = names := by
  intro names
  induction names with
  | nil =>
    intro yw h
    rw [List.mapM_nil] at h
    have : ([] : List (LC × YamlRec)) = yw := Option.some.inj h
    subst this
    rfl
  | cons n rest ih =>
    intro yw h
    rw [List.mapM_cons] at h
    cases hn : prepare_yaml_contents n with
    | none => rw [hn] at h; simp at h
    | some c =>
      rw [hn] at h
      cases hrest : rest.mapM (fun m => (prepare_yaml_contents m).map (fun c2 => (m, c2))) with
      | none => rw [hrest] at h; simp at h
      | some ps =>
        rw [hrest] at h
        simp only [Option.map_some', Option.some_bind, Option.bind_some] at h
        have hyw : (n, c) :: ps = yw := by simpa using h
        subst hyw
        simp [ih ps hrest]

/-- Structure of a successful group: the `Z` set it used, its JSON writes
as name-keyed pairs, the success of its YAML writes, and its triples. -/
theorem groupWrites_some_shape (L : Layout) (enum : Finset LC → List LC)
    (x y : LC) (w : List (LC × List (LC × LC)) × List (LC × YamlRec))
    (h : groupWrites L enum x y = some w) :
    ∃ Zs, fetch_Z_value L.parseEntities (groupFiles L x y) = some Zs ∧
      w.1 = ((enum Zs).map (fun z => jsonNameOf x y z)).map
          (fun n => (n, prepare_json_contents L.parseEntities n (groupFiles L x y))) ∧
      ((enum Zs).map (fun z => yamlNameOf x y z)).mapM
          (fun n => (prepare_yaml_contents n).map (fun c => (n, c))) = some w.2 ∧
      groupTriples L enum x y = some ((enum Zs).map (fun z => (x, y, z))) := by
  have h0 := h
  unfold groupWrites at h
  cases hz : fetch_Z_value L.parseEntities (groupFiles L x y) with
  | none => rw [hz] at h; cases h
  | some Zs =>
    rw [hz] at h
    simp only [prepare_file_names] at h
    cases hm : ((enum Zs).map (fun z => yamlNameOf x y z)).mapM
        (fun n => (prepare_yaml_contents n).map (fun c => (n, c))) with
    | none => rw [hm] at h; cases h
    | some yw =>
      rw [hm] at h
      have hw := Option.some.inj h
      refine ⟨Zs, rfl, ?_, ?_, ?_⟩
      · rw [← hw]
      · rw [← hw]
        exact hm
      · unfold groupTriples
        rw [h0, hz]

/-- The output of one group, as a final directory state and a set of
names, does not depend on the order in which the `Z` set is enumerated. -/
theorem groupWrites_enum_invariant (L : Layout) (e1 e2 : Finset LC → List LC)
    (he1 : goodEnum e1) (he2 : goodEnum e2) (x y : LC)
    (w1 w2 : List (LC × List (LC × LC)) × List (LC × YamlRec))
    (h1 : groupWrites L e1 x y = some w1) (h2 : groupWrites L e2 x y = some w2) :
    toMap w1.1 = toMap w2.1 ∧ toMap w1.2 = toMap w2.2 ∧
    (w1.1.map Prod.fst).toFinset = (w2.1.map Prod.fst).toFinset ∧
    (w1.2.map Prod.fst).toFinset = (w2.2.map Prod.fst).toFinset := by
  obtain ⟨Zs, hz1, hjw1, hym1, -⟩ := groupWrites_some_shape L e1 x y w1 h1
  obtain ⟨Zs2, hz2, hjw2, hym2, -⟩ := groupWrites_some_shape L e2 x y w2 h2
  obtain rfl : Zs2 = Zs := Option.some.inj (hz2.symm.trans hz1)
  have m1 : ∀ z, z ∈ e1 Zs2 ↔ z ∈ Zs2 := fun z => by
    conv_rhs => rw [← (he1 Zs2).2]
    rw [List.mem_toFinset]
  have m2 : ∀ z, z ∈ e2 Zs2 ↔ z ∈ Zs2 := fun z => by
    conv_rhs => rw [← (he2 Zs2).2]
    rw [List.mem_toFinset]
  have hmem : ∀ (f : LC → LC) (n : LC),
      n ∈ (e1 Zs2).map f ↔ n ∈ (e2 Zs2).map f := by
    intro f n
    simp only [List.mem_map]
    constructor
    · rintro ⟨z, hzm, rfl⟩
      exact ⟨z, (m2 z).mpr ((m1 z).mp hzm), rfl⟩
    · rintro ⟨z, hzm, rfl⟩
      exact ⟨z, (m1 z).mpr ((m2 z).mp hzm), rfl⟩
  refine ⟨?_, ?_, ?_, ?_⟩
  · funext k
    rw [hjw1, hjw2, toMap_map_keyed, toMap_map_keyed]
    by_cases hk : k ∈ (e1 Zs2).map (fun z => jsonNameOf x y z)
    · rw [if_pos hk, if_pos ((hmem _ k).mp hk)]
    · rw [if_neg hk, if_neg (fun hc => hk ((hmem _ k).mpr hc))]
  · funext k
    rw [toMap_yaml_mapM _ w1.2 hym1 k, toMap_yaml_mapM _ w2.2 hym2 k]
    by_cases hk : k ∈ (e1 Zs2).map (fun z => yamlNameOf x y z)
    · rw [if_pos hk, if_pos ((hmem _ k).mp hk)]
    · rw [if_neg hk, if_neg (fun hc => hk ((hmem _ k).mpr hc))]
  · rw [hjw1, hjw2]
    ext a
    simp only [List.map_map, List.mem_toFinset, List.mem_map, Function.comp]
    constructor
    · rintro ⟨z, hzm, rfl⟩
      exact ⟨z, (m2 z).mpr ((m1 z).mp hzm), rfl⟩
    · rintro ⟨z, hzm, rfl⟩
      exact ⟨z, (m1 z).mpr ((m2 z).mp hzm), rfl⟩
  · rw [yaml_mapM_keys _ w1.2 hym1, yaml_mapM_keys _ w2.2 hym2]
    ext a
    simp only [List.mem_toFinset]
    exact hmem _ a

/-- The group loop of `run` preserves enumeration-order independence of the
accumulated writes. -/
theorem runLoop_enum_invariant (L : Layout) (e1 e2 : Finset LC → List LC)
    (he1 : goodEnum e1) (he2 : goodEnum e2) :
    ∀ (gs : List (LC × LC))
      (acc1 acc2 r1 r2 : List (LC × List (LC × LC)) × List (LC × YamlRec)),
      toMap acc1.1 = toMap acc2.1 → toMap acc1.2 = toMap acc2.2 →
      (acc1.1.map Prod.fst).toFinset = (acc2.1.map Prod.fst).toFinset →
      (acc1.2.map Prod.fst).toFinset = (acc2.2.map Prod.fst).toFinset →
      runLoop L e1 gs acc1 = some r1 → runLoop L e2 gs acc2 = some r2 →
      toMap r1.1 = toMap r2.1 ∧ toMap r1.2 = toMap r2.2 ∧
      (r1.1.map Prod.fst).toFinset = (r2.1.map Prod.fst).toFinset ∧
      (r1.2.map Prod.fst).toFinset = (r2.2.map Prod.fst).toFinset := by
  intro gs
  induction gs with
  | nil =>
    intro acc1 acc2 r1 r2 hm1 hm2 hf1 hf2 h1 h2
    obtain rfl : acc1 = r1 := Option.some.inj h1
    obtain rfl : acc2 = r2 := Option.some.inj h2
    exact ⟨hm1, hm2, hf1, hf2⟩
  | cons g rest ih =>
    intro acc1 acc2 r1 r2 hm1 hm2 hf1 hf2 h1 h2
    simp only [runLoop] at h1 h2
    cases hw1 : groupWrites L e1 g.1 g.2 with
    | none => rw [hw1] at h1; cases h1
    | some w1 =>
      cases hw2 : groupWrites L e2 g.1 g.2 with
      | none => rw [hw2] at h2; cases h2
      | some w2 =>
        rw [hw1] at h1
        rw [hw2] at h2
        obtain ⟨gm1, gm2, gf1, gf2⟩ :=
          groupWrites_enum_invariant L e1 e2 he1 he2 g.1 g.2 w1 w2 hw1 hw2
        refine ih (acc1.1 ++ w1.1, acc1.2 ++ w1.2) (acc2.1 ++ w2.1, acc2.2 ++ w2.2)
          r1 r2 ?_ ?_ ?_ ?_ h1 h2
        · funext k
          show toMap (acc1.1 ++ w1.1) k = toMap (acc2.1 ++ w2.1) k
          rw [toMap_append, toMap_append, congrFun gm1 k, congrFun hm1 k]
        · funext k
          show toMap (acc1.2 ++ w1.2) k = toMap (acc2.2 ++ w2.2) k
          rw [toMap_append, toMap_append, congrFun gm2 k, congrFun hm2 k]
        · show ((acc1.1 ++ w1.1).map Prod.fst).toFinset
              = ((acc2.1 ++ w2.1).map Prod.fst).toFinset
          ext a
          simp only [List.map_append, List.mem_toFinset, List.mem_append]
          rw [← List.mem_toFinset (l := acc1.1.map Prod.fst), hf1,
            ← List.mem_toFinset (l := w1.1.map Prod.fst), gf1,
            List.mem_toFinset, List.mem_toFinset]
        · show ((acc1.2 ++ w1.2).map Prod.fst).toFinset
              = ((acc2.2 ++ w2.2).map Prod.fst).toFinset
          ext a
          simp only [List.map_append, List.mem_toFinset, List.mem_append]
          rw [← List.mem_toFinset (l := acc1.2.map Prod.fst), hf2,
            ← List.mem_toFinset (l := w1.2.map Prod.fst), gf2,
            List.mem_toFinset, List.mem_toFinset]

/-- C6: running the generator twice over the unchanged layout produces the
same final output state — the same set of emitted JSON and YAML file names
and, for each name, byte-identical contents — whatever orders the two runs
happen to enumerate the `Z` sets in. -/
theorem run_output_enum_invariant (L : Layout) (e1 e2 : Finset LC → List LC)
    (r1 r2 : List (LC × List (LC × LC)) × List (LC × YamlRec))
    (he1 : goodEnum e1) (he2 : goodEnum e2)
    (hr1 : run L e1 = some r1) (hr2 : run L e2 = some r2) :
    toMap r1.1 = toMap r2.1 ∧ toMap r1.2 = toMap r2.2 ∧
    (r1.1.map Prod.fst).toFinset = (r2.1.map Prod.fst).toFinset ∧
    (r1.2.map Prod.fst).toFinset = (r2.2.map Prod.fst).toFinset :=
  runLoop_enum_invariant L e1 e2 he1 he2 (runGroups L) ([], []) ([], [])
    r1 r2 rfl rfl rfl rfl hr1 hr2

/-- The sorted enumeration is a well-behaved enumeration. -/
theorem goodEnum_listEnum : goodEnum listEnum := by
  intro s
  rcases s with ⟨m, hm⟩
  revert hm
  induction m using Quotient.inductionOn with
  | h l =>
    intro hm
    have hl : l.Nodup := Multiset.coe_nodup.mp hm
    have hperm := List.perm_insertionSort lcR l
    constructor
    · exact hperm.nodup_iff.mpr hl
    · ext a
      rw [List.mem_toFinset]
      show a ∈ List.insertionSort lcR l ↔ _
      rw [hperm.mem_iff]
      rfl

/-- The reversed sorted enumeration is a well-behaved enumeration too. -/
theorem goodEnum_revEnum : goodEnum revEnum := by
  intro s
  obtain ⟨h1, h2⟩ := goodEnum_listEnum s
  constructor
  · exact List.nodup_reverse.mpr h1
  · rw [revEnum]
    ext a
    rw [List.mem_toFinset, List.mem_reverse, ← List.mem_toFinset, h2]

/-- Witness for C6: the two-file layout run with the sorted enumeration
and with its reverse produces write lists in different orders whose final
states and name sets coincide. -/
theorem run_output_enum_invariant_witness :
    toMap [(("image03_inputs.func.acq-a_bold.json".data),
              [(("1".data), ("1".data)), (("2".data), ("2".data))]),
            (("image03_inputs.func.acq-b_bold.json".data),
              [(("1".data), ("1".data)), (("2".data), ("2".data))])]
      = toMap [(("image03_inputs.func.acq-b_bold.json".data),
              [(("1".data), ("1".data)), (("2".data), ("2".data))]),
            (("image03_inputs.func.acq-a_bold.json".data),
              [(("1".data), ("1".data)), (("2".data), ("2".data))])] ∧
    toMap [(("image03_inputs.func.acq-a_bold.yaml".data),
              (⟨[], ("Live".data), ("NIFTI".data), ("MRI".data), ("No".data)⟩ : YamlRec)),
            (("image03_inputs.func.acq-b_bold.yaml".data),
              (⟨[], ("Live".data), ("NIFTI".data), ("MRI".data), ("No".data)⟩ : YamlRec))]
      = toMap [(("image03_inputs.func.acq-b_bold.yaml".data),
              (⟨[], ("Live".data), ("NIFTI".data), ("MRI".data), ("No".data)⟩ : YamlRec)),
            (("image03_inputs.func.acq-a_bold.yaml".data),
              (⟨[], ("Live".data), ("NIFTI".data), ("MRI".data), ("No".data)⟩ : YamlRec))] ∧
    (([(("image03_inputs.func.acq-a_bold.json".data),
          [(("1".data), ("1".data)), (("2".data), ("2".data))]),
        (("image03_inputs.func.acq-b_bold.json".data),
          [(("1".data), ("1".data)), (("2".data), ("2".data))])].map Prod.fst).toFinset
      = ([(("image03_inputs.func.acq-b_bold.json".data),
          [(("1".data), ("1".data)), (("2".data), ("2".data))]),
        (("image03_inputs.func.acq-a_bold.json".data),
          [(("1".data), ("1".data)), (("2".data), ("2".data))])].map Prod.fst).toFinset) ∧
    (([(("image03_inputs.func.acq-a_bold.yaml".data),
          (⟨[], ("Live".data), ("NIFTI".data), ("MRI".data), ("No".data)⟩ : YamlRec)),
        (("image03_inputs.func.acq-b_bold.yaml".data),
          (⟨[], ("Live".data), ("NIFTI".data), ("MRI".data), ("No".data)⟩ : YamlRec))].map Prod.fst).toFinset
      = ([(("image03_inputs.func.acq-b_bold.yaml".data),
          (⟨[], ("Live".data), ("NIFTI".data), ("MRI".data), ("No".data)⟩ : YamlRec)),
        (("image03_inputs.func.acq-a_bold.yaml".data),
          (⟨[], ("Live".data), ("NIFTI".data), ("MRI".data), ("No".data)⟩ : YamlRec))].map Prod.fst).toFinset) :=
  run_output_enum_invariant layoutTwoZ listEnum revEnum
    ([(("image03_inputs.func.acq-a_bold.json".data),
        [(("1".data), ("1".data)), (("2".data), ("2".data))]),
      (("image03_inputs.func.acq-b_bold.json".data),
        [(("1".data), ("1".data)), (("2".data), ("2".data))])],
     [(("image03_inputs.func.acq-a_bold.yaml".data),
        (⟨[], ("Live".data), ("NIFTI".data), ("MRI".data), ("No".data)⟩ : YamlRec)),
      (("image03_inputs.func.acq-b_bold.yaml".data),
        (⟨[], ("Live".data), ("NIFTI".data), ("MRI".data), ("No".data)⟩ : YamlRec))])
    ([(("image03_inputs.func.acq-b_bold.json".data),
        [(("1".data), ("1".data)), (("2".data), ("2".data))]),
      (("image03_inputs.func.acq-a_bold.json".data),
        [(("1".data), ("1".data)), (("2".data), ("2".data))])],
     [(("image03_inputs.func.acq-b_bold.yaml".data),
        (⟨[], ("Live".data), ("NIFTI".data), ("MRI".data), ("No".data)⟩ : YamlRec)),
      (("image03_inputs.func.acq-a_bold.yaml".data),
        (⟨[], ("Live".data), ("NIFTI".data), ("MRI".data), ("No".data)⟩ : YamlRec))])
    goodEnum_listEnum goodEnum_revEnum (by rfl) (by rfl)

/-- C8: on the dataset holding `sub-01/anat/sub-01_T1w.nii.gz` (scope
`inputs`, datatype `anat`), the run writes the YAML file
`image03_inputs.anat.T1w.yaml` with `scan_type` `MR structural (T1)` and
`image_modality` `MRI`. -/
theorem run_T1w_example :
    ((run layoutT1w listEnum).map (fun r => toMap r.2 ("image03_inputs.anat.T1w.yaml".data)))
      = some (some ⟨("MR structural (T1)".data), ("Live".data), ("NIFTI".data),
          ("MRI".data), ("No".data)⟩) := by
  decide

/-- The scope list `X` of `run` never repeats a scope name. -/
theorem runX_nodup (L : Layout) : (runX L).Nodup := by
  have hsub : List.Sublist
      (scopePairs.filter (fun p => ¬(L.scopeFiles p.1).isEmpty)) scopePairs :=
    List.filter_sublist _
  have hsub2 : List.Sublist (runX L) (scopePairs.map (fun p => p.2)) := hsub.map _
  exact List.Nodup.sublist hsub2 (by decide)

/-- The `(x, y)` iteration space of `run` never repeats a pair when the
datatype list is duplicate-free. -/
theorem runGroups_nodup (L : Layout) (hd : L.datatypes.Nodup) :
    (runGroups L).Nodup := by
  have hre : runGroups L = (runX L) ×ˢ L.datatypes := rfl
  rw [hre]
  exact List.Nodup.product (runX_nodup L) hd

/-- A successful group writes exactly one JSON file per observed triple. -/
theorem groupWrites_triples_length (L : Layout) (enum : Finset LC → List LC)
    (x y : LC) (w : List (LC × List (LC × LC)) × List (LC × YamlRec))
    (ts : List (LC × LC × LC))
    (h : groupWrites L enum x y = some w) (ht : groupTriples L enum x y = some ts) :
    w.1.length = ts.length := by
  obtain ⟨Zs, hz, hjw, -, hts⟩ := groupWrites_some_shape L enum x y w h
  rw [hts] at ht
  obtain rfl := Option.some.inj ht
  rw [hjw]
  simp

/-- The write loop and the triple loop of `run` advance in step: the
number of JSON writes accumulated equals the number of triples observed. -/
theorem runLoop_triples_length (L : Layout) (enum : Finset LC → List LC) :
    ∀ (gs : List (LC × LC))
      (accW : List (LC × List (LC × LC)) × List (LC × YamlRec))
      (accT : List (LC × LC × LC))
      (r : List (LC × List (LC × LC)) × List (LC × YamlRec))
      (ts : List (LC × LC × LC)),
      runLoop L enum gs accW = some r → runTriplesLoop L enum gs accT = some ts →
      r.1.length + accT.length = ts.length + accW.1.length := by
  intro gs
  induction gs with
  | nil =>
    intro accW accT r ts h1 h2
    obtain rfl := Option.some.inj h1
    obtain rfl := Option.some.inj h2
    omega
  | cons g rest ih =>
    intro accW accT r ts h1 h2
    simp only [runLoop] at h1
    simp only [runTriplesLoop] at h2
    cases hw : groupWrites L enum g.1 g.2 with
    | none => rw [hw] at h1; cases h1
    | some w =>
      rw [hw] at h1
      cases hgt : groupTriples L enum g.1 g.2 with
      | none => rw [hgt] at h2; cases h2
      | some gts =>
        rw [hgt] at h2
        have hlen := groupWrites_triples_length L enum g.1 g.2 w gts hw hgt
        have hrec := ih (accW.1 ++ w.1, accW.2 ++ w.2) (accT ++ gts) r ts h1 h2
        simp only [List.length_append] at hrec ⊢
        omega

/-- Observed triples are duplicate-free: distinct `(x, y)` groups give
disjoint triples, and within one group the enumerated `z` values are
distinct. -/
theorem runTriplesLoop_nodup (L : Layout) (enum : Finset LC → List LC)
    (he : goodEnum enum) :
    ∀ (gs : List (LC × LC)) (acc ts : List (LC × LC × LC)),
      gs.Nodup → (∀ t ∈ acc, (t.1, t.2.1) ∉ gs) → acc.Nodup →
      runTriplesLoop L enum gs acc = some ts → ts.Nodup := by
  intro gs
  induction gs with
  | nil =>
    intro acc ts _ _ hacc h
    obtain rfl := Option.some.inj h
    exact hacc
  | cons g rest ih =>
    intro acc ts hgs hdisj hacc h
    simp only [runTriplesLoop] at h
    cases hgt : groupTriples L enum g.1 g.2 with
    | none => rw [hgt] at h; cases h
    | some gts =>
      rw [hgt] at h
      have hshape : ∃ Zs, gts = (enum Zs).map (fun z => (g.1, g.2, z)) := by
        unfold groupTriples at hgt
        cases hw : groupWrites L enum g.1 g.2 with
        | none => rw [hw] at hgt; cases hgt
        | some w =>
          rw [hw] at hgt
          cases hz : fetch_Z_value L.parseEntities (groupFiles L g.1 g.2) with
          | none => rw [hz] at hgt; cases hgt
          | some Zs =>
            rw [hz] at hgt
            exact ⟨Zs, (Option.some.inj hgt).symm⟩
      obtain ⟨Zs, rfl⟩ := hshape
      have hinj : Function.Injective (fun z : LC => (g.1, g.2, z)) := by
        intro z1 z2 hz12
        simpa using hz12
      have hgts_nodup : ((enum Zs).map (fun z => (g.1, g.2, z))).Nodup :=
        List.Nodup.map hinj (he Zs).1
      have hmemgts : ∀ t ∈ (enum Zs).map (fun z => (g.1, g.2, z)), (t.1, t.2.1) = g := by
        intro t ht
        simp only [List.mem_map] at ht
        obtain ⟨z, -, rfl⟩ := ht
        rfl
      refine ih (acc ++ (enum Zs).map (fun z => (g.1, g.2, z))) ts
        (List.nodup_cons.mp hgs).2 ?_ ?_ h
      · intro t ht
        rcases List.mem_append.mp ht with h1 | h1
        · exact fun hc => hdisj t h1 (List.mem_cons_of_mem g hc)
        · rw [hmemgts t h1]
          exact (List.nodup_cons.mp hgs).1
      · refine List.Nodup.append hacc hgts_nodup ?_
        intro t ht1 ht2
        exact (hdisj t ht1) (by rw [hmemgts t ht2]; exact List.mem_cons_self g rest)

/-- C4: for any layout with duplicate-free datatypes and any well-behaved
set enumeration, the number of JSON/YAML file-name pairs a successful run
generates equals the number of distinct `(scope, datatype, Z)`
combinations it observes. -/
theorem run_pair_count_eq_distinct_triples (L : Layout) (enum : Finset LC → List LC)
    (r : List (LC × List (LC × LC)) × List (LC × YamlRec))
    (ts : List (LC × LC × LC))
    (he : goodEnum enum) (hd : L.datatypes.Nodup)
    (hr : run L enum = some r) (ht : runTriples L enum = some ts) :
    r.1.length = ts.toFinset.card := by
  have hlen := runLoop_triples_length L enum (runGroups L) ([], []) [] r ts hr ht
  have hnodup := runTriplesLoop_nodup L enum he (runGroups L) [] ts
    (runGroups_nodup L hd) (by intro t h2; cases h2) List.nodup_nil ht
  rw [List.toFinset_card_of_nodup hnodup]
  simp at hlen
  omega

/-- Witness for C4 on the two-file layout: two pairs, two distinct
triples. -/
theorem run_pair_count_eq_distinct_triples_witness :
    ([(("image03_inputs.func.acq-a_bold.json".data),
        [(("1".data), ("1".data)), (("2".data), ("2".data))]),
      (("image03_inputs.func.acq-b_bold.json".data),
        [(("1".data), ("1".data)), (("2".data), ("2".data))])]).length
      = ([(("inputs".data), (("func".data), ("acq-a_bold".data))),
          (("inputs".data), (("func".data), ("acq-b_bold".data)))]
          : List (LC × LC × LC)).toFinset.card :=
  run_pair_count_eq_distinct_triples layoutTwoZ listEnum
    ([(("image03_inputs.func.acq-a_bold.json".data),
        [(("1".data), ("1".data)), (("2".data), ("2".data))]),
      (("image03_inputs.func.acq-b_bold.json".data),
        [(("1".data), ("1".data)), (("2".data), ("2".data))])],
     [(("image03_inputs.func.acq-a_bold.yaml".data),
        (⟨[], ("Live".data), ("NIFTI".data), ("MRI".data), ("No".data)⟩ : YamlRec)),
      (("image03_inputs.func.acq-b_bold.yaml".data),
        (⟨[], ("Live".data), ("NIFTI".data), ("MRI".data), ("No".data)⟩ : YamlRec))])
    [(("inputs".data), (("func".data), ("acq-a_bold".data))),
     (("inputs".data), (("func".data), ("acq-b_bold".data)))]
    goodEnum_listEnum (by decide) (by rfl) (by rfl)
